import Mathlib

/-!
# CRC-15 (`src/src/crc15.c`)

A shallow embedding of the C function

```c
uint16_t crc15(uint8_t* buffer_start, uint8_t* buffer_end)
```

Memory is a list of octets, pointers are indices into it, and every dereference
is checked.  The 16-bit register is a natural number that is reduced modulo
`0x10000` wherever the C code stores into the `uint16_t` variable.  The
execution state carries three ghost fields (the addresses read, and the number
of outer and inner loop iterations) that the C code does not have; they never
influence the computed register.
-/

namespace Crc15

/-! ## Data model -/

/-- An octet, the contents of one `uint8_t` cell. -/
abbrev Byte := Fin 256

/-- Reasons for which the embedded execution stops without returning. -/
inductive Fault where
  | outOfBounds (addr : Nat)
  | outOfFuel
  deriving DecidableEq

/-- Local variables of one call of `crc15`, together with the ghost trace. -/
structure Exec where
  /-- The variable `uint16_t crc`. -/
  crc : Nat
  /-- The variable `uint8_t* buffer`, as an index into memory. -/
  buffer : Nat
  /-- Ghost: the addresses dereferenced so far, oldest first. -/
  reads : List Nat
  /-- Ghost: how many times the body of the `while` loop was entered. -/
  outerIters : Nat
  /-- Ghost: how many times the body of the `for` loop was entered. -/
  innerSteps : Nat
  deriving DecidableEq

/-! ## The code -/

/-- Body of the `for` loop on the register alone:
`crc <<= 1; if (crc & 0x8000) { crc ^= 0x4599; }`. -/
def shiftStep (crc : Nat) : Nat :=
  let crc := (crc <<< 1) % 0x10000
  if crc &&& 0x8000 ≠ 0 then (crc ^^^ 0x4599) % 0x10000 else crc

/-- Body of the `for` loop on the execution state. -/
def forBody (st : Exec) : Exec :=
  { st with crc := shiftStep st.crc, innerSteps := st.innerSteps + 1 }

/-- The loop `for (int i = 0; i < 8; i++) { ... }`. -/
def forLoop (st : Exec) : Exec :=
  (List.range 8).foldl (fun s _i => forBody s) st

/-- Body of the `while` loop once `*buffer` has been read as `byte`:
`crc ^= *buffer++ << 7;` followed by the `for` loop. -/
def whileBody (st : Exec) (byte : Byte) : Exec :=
  forLoop
    { st with
      crc := (st.crc ^^^ (byte.val <<< 7)) % 0x10000
      buffer := st.buffer + 1
      reads := st.reads ++ [st.buffer]
      outerIters := st.outerIters + 1 }

/-- The loop `while (buffer < buffer_end) { ... }`.  Each evaluation of the loop
condition costs one unit of fuel. -/
def whileLoop (mem : List Byte) (buffer_end : Nat) : Nat → Exec → Except Fault Exec
  | 0, _ => .error .outOfFuel
  | fuel + 1, st =>
    if st.buffer < buffer_end then
      match mem[st.buffer]? with
      | none => .error (.outOfBounds st.buffer)
      | some byte => whileLoop mem buffer_end fuel (whileBody st byte)
    else .ok st

/-- State on entry of the `while` loop when the register starts at `crc0`. -/
def entry (crc0 buffer_start : Nat) : Exec :=
  { crc := crc0, buffer := buffer_start, reads := [], outerIters := 0, innerSteps := 0 }

/-- The loop of `crc15` started from the register value `crc0`, with one unit of
fuel for each byte of the range and one for the final failing test. -/
def crc15From (crc0 : Nat) (mem : List Byte) (buffer_start buffer_end : Nat) :
    Except Fault Exec :=
  whileLoop mem buffer_end (buffer_end - buffer_start + 1) (entry crc0 buffer_start)

/-- The function `crc15`: `uint16_t crc = 0x7fff; uint8_t* buffer = buffer_start;`
then the `while` loop; the final state holds the returned `crc`. -/
def crc15 (mem : List Byte) (buffer_start buffer_end : Nat) : Except Fault Exec :=
  crc15From 0x7fff mem buffer_start buffer_end

/-- The value a finished execution returns (`return crc;`). -/
def returned (r : Except Fault Exec) : Except Fault Nat :=
  r.map Exec.crc

/-- The call `crc15(buffer, buffer + sizeof(buffer))` of `main`, for an array
holding exactly the octets `b`. -/
def crc15Call (b : List Byte) : Except Fault Nat :=
  returned (crc15 b 0 b.length)

/-- The call of `crc15Call`, but with the register started from `r`. -/
def resumeCall (r : Nat) (b : List Byte) : Except Fault Nat :=
  returned (crc15From r b 0 b.length)

/-! ## Register-level view of the loops -/

/-- Eight rounds of `shiftStep`. -/
def shift8 (crc : Nat) : Nat :=
  (List.range 8).foldl (fun c _i => shiftStep c) crc

/-- Effect of one `while` iteration on the register. -/
def byteStep (crc : Nat) (byte : Byte) : Nat :=
  shift8 ((crc ^^^ (byte.val <<< 7)) % 0x10000)

/-- Effect of the `while` loop on the register, for the octets `bs` in order. -/
def runBytes (crc : Nat) (bs : List Byte) : Nat :=
  bs.foldl byteStep crc

/-- The octets stored in the range `[s, e)` of `mem`. -/
def slice (mem : List Byte) (s e : Nat) : List Byte :=
  (mem.drop s).take (e - s)

/-! ## The reference algorithm of the specification -/

/-- Inner step as the specification words it: `r := (2 * r) mod 2^16`, then, if
`r AND 0x8000` is non-zero, `r := r XOR 0x4599`. -/
def specRound (r : Nat) : Nat :=
  let r := (2 * r) % 2 ^ 16
  if r &&& 0x8000 ≠ 0 then r ^^^ 0x4599 else r

/-- Per-byte step as the specification words it: `r := r XOR (x * 128)`, then
exactly eight inner steps. -/
def specByte (r : Nat) (x : Byte) : Nat :=
  specRound (specRound (specRound (specRound (specRound (specRound (specRound
    (specRound (r ^^^ (x.val * 128)))))))))

/-- Reference algorithm of the specification: start from `0x7FFF`, process the
bytes in order, return the final register without masking. -/
def crc15Spec (b : List Byte) : Nat :=
  b.foldl specByte 0x7FFF

/-- The octet `x` with bit `k` inverted (bits above bit 7 are dropped). -/
def flipBit (x : Byte) (k : Nat) : Byte :=
  ⟨(x.val ^^^ (1 <<< k)) % 256, Nat.mod_lt _ (by decide)⟩

/-- Low seven bits that a register with high part `h` (bits 7 and up) must have
for eight inner steps to leave it unchanged, put together with that high part. -/
def fixCandidate (h : Nat) : Nat :=
  shift8 (h <<< 7) % 128 + 128 * h

/-! ## The demonstration program -/

/-- The array `uint8_t buffer[] = {0x41, 0x41, 0x41, 0x41}` of `main`. -/
def demoBuffer : List Byte := [0x41, 0x41, 0x41, 0x41]

/-- Lower-case hexadecimal digits of `v`, most significant first. -/
def hexDigits (v : Nat) : List Char :=
  Nat.toDigits 16 v

/-- The conversion `%#06x` of the C library: lower-case hexadecimal, prefixed by
`0x` when the value is not zero, padded with zeros to six characters. -/
def printfHex06 (v : Nat) : String :=
  let digits := hexDigits v
  let pre := if v = 0 then [] else ['0', 'x']
  String.mk (pre ++ List.replicate (6 - (pre.length + digits.length)) '0' ++ digits)

/-- What `main` writes to standard output: `printf("crc: %#06x\n", crc)` for
`crc = crc15(buffer, buffer + sizeof(buffer))`. -/
def mainOutput : Except Fault String :=
  (crc15Call demoBuffer).map fun crc => "crc: " ++ printfHex06 crc ++ "\n"

/-! ## The textbook bit-serial CRC-15 -/

/-- One message bit of the textbook CRC-15: the feedback is bit 14 of the
register XOR bit `k` of the octet; the register is shifted left within 15
bits; the polynomial `0x4599` is XORed in when the feedback is set. -/
def refBit (reg : Nat) (x : Byte) (k : Nat) : Nat :=
  let fb := reg.testBit 14 ^^ x.val.testBit k
  let reg := (reg <<< 1) &&& 0x7FFF
  if fb then reg ^^^ 0x4599 else reg

/-- One octet of the textbook CRC-15, most significant bit first. -/
def refByte (reg : Nat) (x : Byte) : Nat :=
  [7, 6, 5, 4, 3, 2, 1, 0].foldl (fun r k => refBit r x k) reg

/-- The textbook CRC-15: polynomial `0x4599`, initial value `0x7FFF`, no final
XOR. -/
def crc15Ref (b : List Byte) : Nat :=
  b.foldl refByte 0x7FFF

/-! ## Bytewise XOR of messages -/

/-- XOR of two octets. -/
def xorByte (x y : Byte) : Byte :=
  ⟨(x.val ^^^ y.val) % 256, Nat.mod_lt _ (by decide)⟩

/-- Bytewise XOR of two sequences. -/
def xorBytes (a b : List Byte) : List Byte :=
  List.zipWith xorByte a b

/-! ## Execution of the loops -/

/-- The `for` loop applies eight inner steps to the register and counts them. -/
theorem forLoop_eq (st : Exec) :
    forLoop st = { st with crc := shift8 st.crc, innerSteps := st.innerSteps + 8 } := rfl

/-- One `while` iteration: the per-byte update of the register, the pointer
advanced by one, the address logged, and the counters increased. -/
theorem whileBody_eq (st : Exec) (byte : Byte) :
    whileBody st byte =
      { crc := byteStep st.crc byte
        buffer := st.buffer + 1
        reads := st.reads ++ [st.buffer]
        outerIters := st.outerIters + 1
        innerSteps := st.innerSteps + 8 } := rfl

/-- With more fuel than octets left, the `while` loop started at the first octet
of `b` consumes `b` and stops at its end. -/
theorem whileLoop_run (post : List Byte) :
    ∀ (b pre : List Byte) (st : Exec) (fuel : Nat),
      st.buffer = pre.length → b.length < fuel →
      whileLoop (pre ++ b ++ post) (pre.length + b.length) fuel st =
        .ok { crc := runBytes st.crc b
              buffer := pre.length + b.length
              reads := st.reads ++ List.range' pre.length b.length
              outerIters := st.outerIters + b.length
              innerSteps := st.innerSteps + 8 * b.length } := by
  intro b
  induction b with
  | nil =>
    intro pre st fuel hb hf
    obtain ⟨fuel, rfl⟩ : ∃ k, fuel = k + 1 := ⟨fuel - 1, by simp at hf; omega⟩
    cases st
    simp_all [whileLoop, runBytes]
  | cons x b ih =>
    intro pre st fuel hb hf
    obtain ⟨fuel, rfl⟩ : ∃ k, fuel = k + 1 := ⟨fuel - 1, by simp at hf; omega⟩
    have hmem : (pre ++ x :: b ++ post)[st.buffer]? = some x := by
      rw [hb, List.append_assoc, List.getElem?_append_right (Nat.le_refl _)]; simp
    have hlt : st.buffer < pre.length + (x :: b).length := by
      rw [hb]; simp
    have hsplit : pre ++ x :: b ++ post = (pre ++ [x]) ++ b ++ post := by simp
    have hlen : pre.length + (x :: b).length = (pre ++ [x]).length + b.length := by
      simp; omega
    rw [whileLoop, if_pos hlt, hmem]
    simp only
    rw [hsplit, hlen, ih (pre ++ [x]) (whileBody st x) fuel
      (by rw [whileBody_eq]; simp [hb]) (by simp at hf; omega)]
    rw [whileBody_eq]
    simp only [runBytes, List.foldl_cons, List.length_cons, List.length_append,
      List.length_singleton, List.range'_succ, List.append_assoc, List.singleton_append, hb]
    congr 2 <;> omega

/-- With no more fuel than octets left, the `while` loop runs out of fuel. -/
theorem whileLoop_starved (post : List Byte) :
    ∀ (b pre : List Byte) (st : Exec) (fuel : Nat),
      st.buffer = pre.length → fuel ≤ b.length →
      whileLoop (pre ++ b ++ post) (pre.length + b.length) fuel st =
        .error .outOfFuel := by
  intro b
  induction b with
  | nil =>
    intro pre st fuel hb hf
    obtain rfl : fuel = 0 := by simpa using hf
    rfl
  | cons x b ih =>
    intro pre st fuel hb hf
    cases fuel with
    | zero => rfl
    | succ fuel =>
      have hmem : (pre ++ x :: b ++ post)[st.buffer]? = some x := by
        rw [hb, List.append_assoc, List.getElem?_append_right (Nat.le_refl _)]; simp
      have hlt : st.buffer < pre.length + (x :: b).length := by
        rw [hb]; simp
      have hsplit : pre ++ x :: b ++ post = (pre ++ [x]) ++ b ++ post := by simp
      have hlen : pre.length + (x :: b).length = (pre ++ [x]).length + b.length := by
        simp; omega
      rw [whileLoop, if_pos hlt, hmem]
      simp only
      rw [hsplit, hlen]
      exact ih (pre ++ [x]) (whileBody st x) fuel (by rw [whileBody_eq]; simp [hb])
        (by simp at hf; omega)

/-- A valid range cuts memory into what precedes it, its octets, and the rest. -/
theorem mem_split (mem : List Byte) (s e : Nat) (hse : s ≤ e) (he : e ≤ mem.length) :
    mem = mem.take s ++ slice mem s e ++ mem.drop e ∧
      (mem.take s).length = s ∧ (slice mem s e).length = e - s := by
  refine ⟨?_, ?_, ?_⟩
  · have h1 : mem.drop e = (mem.drop s).drop (e - s) := by
      rw [List.drop_drop]; congr 1; omega
    rw [slice, h1, List.append_assoc, List.take_append_drop, List.take_append_drop]
  · simp; omega
  · simp [slice]; omega

/-- The final state of the loop of `crc15` on a valid range, for any fuel that
exceeds the number of octets. -/
theorem whileLoop_valid (r : Nat) (mem : List Byte) (s e fuel : Nat) (hse : s ≤ e)
    (he : e ≤ mem.length) (hf : e - s < fuel) :
    whileLoop mem e fuel (entry r s) =
      .ok { crc := runBytes r (slice mem s e)
            buffer := e
            reads := List.range' s (e - s)
            outerIters := e - s
            innerSteps := 8 * (e - s) } := by
  obtain ⟨h1, h2, h3⟩ := mem_split mem s e hse he
  have hrun := whileLoop_run (mem.drop e) (slice mem s e) (mem.take s) (entry r s) fuel
    (by rw [h2]; rfl) (by rw [h3]; exact hf)
  rw [← h1, h2, h3] at hrun
  have hes : s + (e - s) = e := by omega
  rw [hes] at hrun
  rw [hrun]
  simp [entry]

/-- On a valid range, fuel that does not exceed the number of octets runs out. -/
theorem whileLoop_short (r : Nat) (mem : List Byte) (s e fuel : Nat) (hse : s ≤ e)
    (he : e ≤ mem.length) (hf : fuel ≤ e - s) :
    whileLoop mem e fuel (entry r s) = .error .outOfFuel := by
  obtain ⟨h1, h2, h3⟩ := mem_split mem s e hse he
  have hrun := whileLoop_starved (mem.drop e) (slice mem s e) (mem.take s) (entry r s) fuel
    (by rw [h2]; rfl) (by rw [h3]; exact hf)
  rw [← h1, h2, h3] at hrun
  have hes : s + (e - s) = e := by omega
  rw [hes] at hrun
  exact hrun

/-- The final state of the loop of `crc15` on a valid range. -/
theorem crc15From_valid (r : Nat) (mem : List Byte) (s e : Nat) (hse : s ≤ e)
    (he : e ≤ mem.length) :
    crc15From r mem s e =
      .ok { crc := runBytes r (slice mem s e)
            buffer := e
            reads := List.range' s (e - s)
            outerIters := e - s
            innerSteps := 8 * (e - s) } :=
  whileLoop_valid r mem s e (e - s + 1) hse he (Nat.lt_succ_self _)

/-- The range that spans a whole array holds the whole array. -/
theorem slice_all (b : List Byte) : slice b 0 b.length = b := by
  simp [slice]

/-- The value returned when the loop is started from `r` on an array holding `b`. -/
theorem resumeCall_eq (r : Nat) (b : List Byte) : resumeCall r b = .ok (runBytes r b) := by
  rw [resumeCall, crc15From_valid r b 0 b.length (Nat.zero_le _) (Nat.le_refl _), slice_all]
  rfl

/-- The value returned by `crc15` on an array holding `b`. -/
theorem crc15Call_eq (b : List Byte) : crc15Call b = .ok (runBytes 0x7fff b) :=
  resumeCall_eq 0x7fff b


/-! ## Bit-level facts about the inner step -/

/-- Masking with `0x8000` isolates bit 15. -/
theorem and_bit15 (s : Nat) : s &&& 0x8000 = if s.testBit 15 then 0x8000 else 0 := by
  have h : (0x8000 : Nat) = 2 ^ 15 := by norm_num
  rw [h]
  apply Nat.eq_of_testBit_eq
  intro i
  rw [Nat.testBit_and, Nat.testBit_two_pow]
  have h15 : Nat.testBit 32768 15 = true := by decide
  by_cases hi : 15 = i
  · subst hi
    cases hs : Nat.testBit s 15 <;> simp [h15]
  · cases hs : Nat.testBit s 15 <;> simp [hi, Nat.testBit_two_pow_of_ne hi]

/-- After the 16-bit left shift, bit 15 is the old bit 14. -/
theorem testBit15_shift (r : Nat) : ((r <<< 1) % 0x10000).testBit 15 = r.testBit 14 := by
  have h : (0x10000 : Nat) = 2 ^ 16 := by norm_num
  rw [h, Nat.testBit_mod_two_pow, Nat.testBit_shiftLeft]
  simp

/-- The shifted register fits in 16 bits. -/
theorem shifted_lt (r : Nat) : (r <<< 1) % 0x10000 < 2 ^ 16 :=
  Nat.mod_lt _ (by norm_num)

/-- The inner step without control flow: shift within 16 bits, then XOR the
feedback constant exactly when bit 14 of the old register was set. -/
theorem shiftStep_eq (r : Nat) :
    shiftStep r = ((r <<< 1) % 0x10000) ^^^ (if r.testBit 14 then 0x4599 else 0) := by
  have hx : ((r <<< 1) % 0x10000 ^^^ 0x4599) % 0x10000 = (r <<< 1) % 0x10000 ^^^ 0x4599 :=
    Nat.mod_eq_of_lt (Nat.xor_lt_two_pow (shifted_lt r) (by norm_num))
  unfold shiftStep
  simp only [and_bit15, testBit15_shift, hx]
  cases h : r.testBit 14 <;> simp

/-- The inner step keeps the register within 16 bits. -/
theorem shiftStep_lt (r : Nat) : shiftStep r < 0x10000 := by
  rw [shiftStep_eq]
  have : (if r.testBit 14 then 0x4599 else 0) < 2 ^ 16 := by split <;> norm_num
  exact Nat.xor_lt_two_pow (shifted_lt r) this

/-- The eight rounds, written out. -/
theorem shift8_eq (r : Nat) :
    shift8 r = shiftStep (shiftStep (shiftStep (shiftStep (shiftStep (shiftStep (shiftStep
      (shiftStep r))))))) := rfl

/-- Eight inner steps keep the register within 16 bits. -/
theorem shift8_lt (r : Nat) : shift8 r < 0x10000 := by
  rw [shift8_eq]; exact shiftStep_lt _

/-- The per-byte update keeps the register within 16 bits. -/
theorem byteStep_lt (r : Nat) (x : Byte) : byteStep r x < 0x10000 := shift8_lt _

/-- No octet, no change. -/
theorem runBytes_nil (r : Nat) : runBytes r [] = r := rfl

/-- The first octet is consumed first. -/
theorem runBytes_cons (r : Nat) (x : Byte) (b : List Byte) :
    runBytes r (x :: b) = runBytes (byteStep r x) b := rfl

/-- The `while` loop keeps a 16-bit register within 16 bits. -/
theorem runBytes_lt (b : List Byte) : ∀ r : Nat, r < 0x10000 → runBytes r b < 0x10000 := by
  induction b with
  | nil => intro r hr; rw [runBytes_nil]; exact hr
  | cons x b ih => intro r _; rw [runBytes_cons]; exact ih _ (byteStep_lt r x)

/-- The `while` loop over a concatenation is the loop over the first part followed
by the loop over the second part. -/
theorem runBytes_append (r : Nat) (a b : List Byte) :
    runBytes r (a ++ b) = runBytes (runBytes r a) b := by
  simp [runBytes, List.foldl_append]

/-! ## Agreement with the reference algorithm of the specification -/

/-- The inner step of the code is the inner step of the specification. -/
theorem shiftStep_eq_specRound (r : Nat) : shiftStep r = specRound r := by
  have hx : ((r <<< 1) % 0x10000 ^^^ 0x4599) % 0x10000 = (r <<< 1) % 0x10000 ^^^ 0x4599 :=
    Nat.mod_eq_of_lt (Nat.xor_lt_two_pow (shifted_lt r) (by norm_num))
  have hs : r <<< 1 = 2 * r := by rw [Nat.shiftLeft_eq]; omega
  rw [hs] at hx
  unfold shiftStep specRound
  simp only [hs, hx]
  norm_num

/-- An octet shifted left by seven positions stays below bit 15. -/
theorem byte_shift_lt (x : Byte) : x.val <<< 7 < 0x8000 := by
  rw [Nat.shiftLeft_eq]
  have := x.isLt
  omega

/-- On a 16-bit register the per-byte update of the code is that of the
specification. -/
theorem byteStep_eq_specByte (r : Nat) (hr : r < 0x10000) (x : Byte) :
    byteStep r x = specByte r x := by
  have hx : (r ^^^ (x.val <<< 7)) % 0x10000 = r ^^^ (x.val * 128) := by
    have h7 : x.val <<< 7 = x.val * 128 := by rw [Nat.shiftLeft_eq]
    rw [← h7]
    have hr16 : r < 2 ^ 16 := hr
    have hx16 : x.val <<< 7 < 2 ^ 16 := lt_trans (byte_shift_lt x) (by norm_num)
    exact Nat.mod_eq_of_lt (Nat.xor_lt_two_pow hr16 hx16)
  rw [byteStep, shift8_eq, hx, specByte]
  simp only [shiftStep_eq_specRound]

/-- On a 16-bit register the `while` loop of the code is the fold of the
specification. -/
theorem runBytes_eq_spec (b : List Byte) :
    ∀ r : Nat, r < 0x10000 → runBytes r b = b.foldl specByte r := by
  induction b with
  | nil => intro r _; rw [runBytes_nil, List.foldl_nil]
  | cons x b ih =>
    intro r hr
    rw [runBytes_cons, List.foldl_cons, ← byteStep_eq_specByte r hr x]
    exact ih _ (byteStep_lt r x)

/-! ## Linearity over GF(2) and injectivity on the low 15 bits -/

/-- Reduction modulo a power of two distributes over XOR. -/
theorem xor_mod_two_pow (a b n : Nat) : (a ^^^ b) % 2 ^ n = a % 2 ^ n ^^^ b % 2 ^ n := by
  rw [← Nat.and_pow_two_sub_one_eq_mod, ← Nat.and_pow_two_sub_one_eq_mod,
    ← Nat.and_pow_two_sub_one_eq_mod, Nat.and_xor_distrib_right]

/-- Truncation to 16 bits distributes over XOR. -/
theorem xor_mod_u16 (a b : Nat) : (a ^^^ b) % 0x10000 = a % 0x10000 ^^^ b % 0x10000 :=
  xor_mod_two_pow a b 16

/-- Taking the low 15 bits distributes over XOR. -/
theorem xor_mod_low15 (a b : Nat) : (a ^^^ b) % 0x8000 = a % 0x8000 ^^^ b % 0x8000 :=
  xor_mod_two_pow a b 15

/-- Left shift distributes over XOR. -/
theorem shiftLeft_xor (a b k : Nat) : (a ^^^ b) <<< k = a <<< k ^^^ b <<< k := by
  apply Nat.eq_of_testBit_eq
  intro i
  simp only [Nat.testBit_shiftLeft, Nat.testBit_xor]
  by_cases h : k ≤ i <;> simp [h]

/-- Middle-four exchange for XOR. -/
theorem xor_xor_xor_comm (a b c d : Nat) :
    (a ^^^ b) ^^^ (c ^^^ d) = (a ^^^ c) ^^^ (b ^^^ d) := by
  apply Nat.eq_of_testBit_eq
  intro i
  simp only [Nat.testBit_xor]
  cases a.testBit i <;> cases b.testBit i <;> cases c.testBit i <;> cases d.testBit i <;> rfl

/-- The inner step is linear over GF(2). -/
theorem shiftStep_xor (a b : Nat) : shiftStep (a ^^^ b) = shiftStep a ^^^ shiftStep b := by
  have hc : (if (a.testBit 14 ^^ b.testBit 14) = true then 0x4599 else 0) =
      (if a.testBit 14 = true then 0x4599 else 0) ^^^
        (if b.testBit 14 = true then 0x4599 else 0) := by
    cases a.testBit 14 <;> cases b.testBit 14 <;> rfl
  simp only [shiftStep_eq, shiftLeft_xor, xor_mod_u16, Nat.testBit_xor]
  rw [hc, xor_xor_xor_comm]

/-- The inner step maps the zero register to itself. -/
theorem shiftStep_zero : shiftStep 0 = 0 := by decide

/-- If the low 15 bits vanish after the inner step, they vanished before it. -/
theorem shiftStep_low15_zero (d : Nat) (h : shiftStep d % 0x8000 = 0) : d % 0x8000 = 0 := by
  rw [shiftStep_eq] at h
  have hs : d <<< 1 = 2 * d := by rw [Nat.shiftLeft_eq]; omega
  have hbit := @Nat.testBit_to_div_mod 14 d
  rw [hs] at h
  cases hd : d.testBit 14
  · rw [hd] at h hbit
    simp only [Bool.false_eq_true, if_false, Nat.xor_zero] at h
    have hne : ¬ (d / 2 ^ 14 % 2 = 1) := by
      intro hc; rw [decide_eq_true hc] at hbit; exact Bool.noConfusion hbit
    omega
  · rw [hd] at h
    simp only [if_true] at h
    have hodd : (2 * d % 0x10000 ^^^ 0x4599) % 2 = 1 := by
      rw [Nat.xor_mod_two_eq]; omega
    omega

/-- The inner step is injective on the low 15 bits of the register. -/
theorem shiftStep_low15_inj (a b : Nat) (h : shiftStep a % 0x8000 = shiftStep b % 0x8000) :
    a % 0x8000 = b % 0x8000 := by
  have h1 : shiftStep (a ^^^ b) % 0x8000 = 0 := by
    rw [shiftStep_xor, xor_mod_low15, h, Nat.xor_self]
  have h2 := shiftStep_low15_zero _ h1
  rw [xor_mod_low15] at h2
  exact Nat.xor_eq_zero.mp h2

/-- Eight inner steps are injective on the low 15 bits of the register. -/
theorem shift8_low15_inj (a b : Nat) (h : shift8 a % 0x8000 = shift8 b % 0x8000) :
    a % 0x8000 = b % 0x8000 := by
  rw [shift8_eq, shift8_eq] at h
  iterate 8 replace h := shiftStep_low15_inj _ _ h
  exact h

/-- The low 15 bits survive truncation to 16 bits. -/
theorem low15_of_u16 (n : Nat) : n % 0x10000 % 0x8000 = n % 0x8000 :=
  Nat.mod_mod_of_dvd n (by norm_num)

/-- For a fixed octet, the per-byte update is injective on the low 15 bits of
the register. -/
theorem byteStep_low15_inj_reg (a b : Nat) (x : Byte)
    (h : byteStep a x % 0x8000 = byteStep b x % 0x8000) : a % 0x8000 = b % 0x8000 := by
  have h1 := shift8_low15_inj _ _ h
  rw [low15_of_u16, low15_of_u16, xor_mod_low15, xor_mod_low15] at h1
  exact Nat.xor_left_inj.mp h1

/-- For a fixed register, the low 15 bits of the per-byte update determine the
octet. -/
theorem byteStep_low15_inj_byte (r : Nat) (x y : Byte)
    (h : byteStep r x % 0x8000 = byteStep r y % 0x8000) : x = y := by
  have h1 := shift8_low15_inj _ _ h
  rw [low15_of_u16, low15_of_u16, xor_mod_low15, xor_mod_low15] at h1
  have h2 := Nat.xor_right_inj.mp h1
  rw [Nat.mod_eq_of_lt (byte_shift_lt x), Nat.mod_eq_of_lt (byte_shift_lt y),
    Nat.shiftLeft_eq, Nat.shiftLeft_eq] at h2
  apply Fin.ext
  omega

/-- The `while` loop over the same octets is injective on the low 15 bits of the
starting register. -/
theorem runBytes_low15_inj (q : List Byte) :
    ∀ a b : Nat, runBytes a q % 0x8000 = runBytes b q % 0x8000 → a % 0x8000 = b % 0x8000 := by
  induction q with
  | nil => intro a b h; rw [runBytes_nil, runBytes_nil] at h; exact h
  | cons x q ih =>
    intro a b h
    rw [runBytes_cons, runBytes_cons] at h
    exact byteStep_low15_inj_reg a b x (ih _ _ h)

/-- Two sequences that differ in exactly one octet have checksums that differ
in their low 15 bits. -/
theorem runBytes_single_diff (r : Nat) (p q : List Byte) (x y : Byte) (hxy : x ≠ y) :
    runBytes r (p ++ x :: q) % 0x8000 ≠ runBytes r (p ++ y :: q) % 0x8000 := by
  intro h
  rw [runBytes_append, runBytes_append, runBytes_cons, runBytes_cons] at h
  have h1 := runBytes_low15_inj q _ _ h
  exact hxy (byteStep_low15_inj_byte _ x y h1)

/-! ## Fixed points of eight inner steps -/

/-- Eight inner steps are linear over GF(2). -/
theorem shift8_xor (a b : Nat) : shift8 (a ^^^ b) = shift8 a ^^^ shift8 b := by
  simp only [shift8_eq, shiftStep_xor]

/-- Below bit 14 the inner step is a plain doubling. -/
theorem shiftStep_small (a : Nat) (h : a < 2 ^ 14) : shiftStep a = 2 * a := by
  rw [shiftStep_eq, Nat.testBit_lt_two_pow h, Nat.shiftLeft_eq]
  simp only [Bool.false_eq_true, if_false, Nat.xor_zero]
  omega

/-- Eight inner steps shift a seven-bit register left by eight positions. -/
theorem shift8_small (a : Nat) (h : a < 128) : shift8 a = 256 * a := by
  have e1 := shiftStep_small a (by omega)
  have e2 := shiftStep_small (2 * a) (by omega)
  have e3 := shiftStep_small (2 * (2 * a)) (by omega)
  have e4 := shiftStep_small (2 * (2 * (2 * a))) (by omega)
  have e5 := shiftStep_small (2 * (2 * (2 * (2 * a)))) (by omega)
  have e6 := shiftStep_small (2 * (2 * (2 * (2 * (2 * a))))) (by omega)
  have e7 := shiftStep_small (2 * (2 * (2 * (2 * (2 * (2 * a)))))) (by omega)
  have e8 := shiftStep_small (2 * (2 * (2 * (2 * (2 * (2 * (2 * a))))))) (by omega)
  rw [shift8_eq, e1, e2, e3, e4, e5, e6, e7, e8]
  omega

/-- A number is the XOR of its low seven bits and the rest. -/
theorem split_low7 (r : Nat) : r = r % 128 ^^^ (r >>> 7) <<< 7 := by
  have h : (128 : Nat) = 2 ^ 7 := by norm_num
  rw [h]
  apply Nat.eq_of_testBit_eq
  intro i
  simp only [Nat.testBit_xor, Nat.testBit_mod_two_pow, Nat.testBit_shiftLeft,
    Nat.testBit_shiftRight]
  by_cases hi : i < 7
  · have h7 : ¬ 7 ≤ i := by omega
    simp [hi, h7]
  · have : 7 + (i - 7) = i := by omega
    simp [hi, this]; omega

/-- Of the 512 candidates, only `0x0000` and `0xC377` are unchanged by eight inner
steps. -/
theorem fixCandidate_check :
    ∀ h < 512, shift8 (fixCandidate h) = fixCandidate h →
      fixCandidate h = 0 ∨ fixCandidate h = 0xC377 := by
  decide!

/-- Eight inner steps leave exactly two 16-bit registers unchanged. -/
theorem shift8_fixed (r : Nat) (hr : r < 0x10000) (h : shift8 r = r) :
    r = 0 ∨ r = 0xC377 := by
  have hsplit := split_low7 r
  have hF : shift8 r = 256 * (r % 128) ^^^ shift8 ((r >>> 7) <<< 7) := by
    conv_lhs => rw [hsplit]
    rw [shift8_xor, shift8_small _ (Nat.mod_lt _ (by norm_num))]
  have hlow : shift8 ((r >>> 7) <<< 7) % 128 = r % 128 := by
    have h1 : shift8 r % 2 ^ 7 = r % 2 ^ 7 := by rw [h]
    rw [hF, xor_mod_two_pow] at h1
    have h2 : 256 * (r % 128) % 2 ^ 7 = 0 := by omega
    rw [h2, Nat.zero_xor] at h1
    exact h1
  have hcand : fixCandidate (r >>> 7) = r := by
    rw [fixCandidate, hlow, Nat.shiftRight_eq_div_pow]
    omega
  have hlt : r >>> 7 < 512 := by
    rw [Nat.shiftRight_eq_div_pow]; omega
  have := fixCandidate_check (r >>> 7) hlt
  rw [hcand] at this
  exact this h

/-- A zero octet leaves the register as it is before the eight inner steps. -/
theorem byteStep_zero (r : Nat) (hr : r < 0x10000) : byteStep r 0 = shift8 r := by
  rw [byteStep]
  have h0 : ((0 : Byte).val) <<< 7 = 0 := by decide
  rw [h0, Nat.xor_zero, Nat.mod_eq_of_lt hr]

/-- The zero register is unchanged by eight inner steps. -/
theorem shift8_fixed_zero : shift8 0 = 0 := by decide

/-- The register `0xC377` is unchanged by eight inner steps. -/
theorem shift8_fixed_C377 : shift8 0xC377 = 0xC377 := by decide

/-- Inverting one of the eight bits of an octet changes the octet. -/
theorem flipBit_ne (x : Byte) (k : Nat) (hk : k < 8) : flipBit x k ≠ x := by
  intro h
  have hv : (x.val ^^^ (1 <<< k)) % 256 = x.val := congrArg Fin.val h
  have hx : x.val < 2 ^ 8 := x.isLt
  have hp : 1 <<< k < 2 ^ 8 := by
    rw [Nat.one_shiftLeft]; exact Nat.pow_lt_pow_right (by norm_num) hk
  rw [Nat.mod_eq_of_lt (Nat.xor_lt_two_pow hx hp)] at hv
  have h0 : x.val ^^^ (1 <<< k) = x.val ^^^ 0 := by rw [Nat.xor_zero]; exact hv
  have h1 := Nat.xor_right_inj.mp h0
  rw [Nat.one_shiftLeft] at h1
  exact (Nat.pos_pow_of_pos k (by norm_num)).ne' h1

/-! ## Claims about `crc15` -/

/-- C1: for every byte sequence `b`, of any length, the value returned by `crc15`
is the one the reference algorithm of the specification computes (start at
`0x7FFF`; per byte XOR in `x * 128`, then eight times double modulo `2^16` and
XOR `0x4599` when `0x8000` is set), as the full 16-bit word without masking. -/
theorem crc15_matches_reference (b : List Byte) : crc15Call b = .ok (crc15Spec b) := by
  rw [crc15Call_eq, runBytes_eq_spec b 0x7fff (by norm_num)]
  rfl

set_option maxRecDepth 100000 in
/-- C2: the returned word is not always below `0x8000`: on the array of the
demonstration program `crc15` returns a value with bit 15 set. -/
theorem crc15_demo_bit15_set :
    ∃ v, crc15Call [0x41, 0x41, 0x41, 0x41] = .ok v ∧ 0x8000 ≤ v ∧ v &&& 0x8000 = 0x8000 :=
  ⟨0xE397, rfl, by decide, by decide⟩

/-- C3: on an empty range (`buffer_start = buffer_end`) `crc15` returns `0x7FFF`;
the loop body is never entered, nothing is read, and the initial register is
returned unchanged, wherever the range lies. -/
theorem crc15_empty_range :
    crc15Call [] = .ok 0x7FFF ∧
      ∀ (mem : List Byte) (p : Nat),
        crc15 mem p p =
          .ok { crc := 0x7FFF, buffer := p, reads := [], outerIters := 0, innerSteps := 0 } := by
  refine ⟨rfl, ?_⟩
  intro mem p
  simp [crc15, crc15From, whileLoop, entry]

set_option maxRecDepth 100000 in
/-- C4: reference vector: `crc15` of the four octets `0x41 0x41 0x41 0x41` is
`0xE397`, and the demonstration program prints it as `crc: 0xe397`. -/
theorem crc15_demo_vector :
    crc15Call [0x41, 0x41, 0x41, 0x41] = .ok 0xE397 ∧ mainOutput = .ok "crc: 0xe397\n" :=
  ⟨rfl, rfl⟩

/-- C5: single-bit error detection: inverting bit `k` (`k < 8`) of the octet at
any index `i` of a sequence changes the value `crc15` returns. -/
theorem crc15_single_bit_flip (b : List Byte) (i : Nat) (hi : i < b.length) (k : Nat)
    (hk : k < 8) :
    ∃ v w, crc15Call b = .ok v ∧ crc15Call (b.set i (flipBit b[i] k)) = .ok w ∧ w ≠ v := by
  refine ⟨_, _, crc15Call_eq _, crc15Call_eq _, ?_⟩
  intro h
  have hb : b = b.take i ++ b[i] :: b.drop (i + 1) := by
    rw [List.getElem_cons_drop, List.take_append_drop]
  have hs : b.set i (flipBit b[i] k) = b.take i ++ flipBit b[i] k :: b.drop (i + 1) :=
    List.set_eq_take_cons_drop _ hi
  rw [hs] at h
  conv at h => rhs; rw [hb]
  exact runBytes_single_diff 0x7fff _ _ _ _ (flipBit_ne b[i] k hk).symm
    (congrArg (· % 0x8000) h).symm

/-- Witness of C5 on the demonstration array: inverting bit 0 of its first octet. -/
theorem crc15_single_bit_flip_witness :
    (0 < ([0x41, 0x41, 0x41, 0x41] : List Byte).length ∧ 0 < 8) ∧
      ∃ v w, crc15Call [0x41, 0x41, 0x41, 0x41] = .ok v ∧
        crc15Call (([0x41, 0x41, 0x41, 0x41] : List Byte).set 0
          (flipBit ([0x41, 0x41, 0x41, 0x41] : List Byte)[0] 0)) = .ok w ∧ w ≠ v :=
  ⟨⟨by decide, by decide⟩,
    crc15_single_bit_flip [0x41, 0x41, 0x41, 0x41] 0 (by decide) 0 (by decide)⟩

set_option maxRecDepth 100000 in
/-- C6 fails as stated: the non-empty sequence `0xFF 0xFE` has checksum `0`, and
so has the sequence extended by a zero octet. -/
theorem crc15_zero_extension_fixed :
    ([0xFF, 0xFE] : List Byte) ≠ [] ∧
      crc15Call ([0xFF, 0xFE] ++ [0x00]) = .ok 0 ∧ crc15Call [0xFF, 0xFE] = .ok 0 :=
  ⟨by decide, rfl, rfl⟩

/-- C6, amended: appending a zero octet leaves the value returned by `crc15`
unchanged exactly when that value is `0x0000` or `0xC377`; for every other
sequence the two checksums differ. -/
theorem crc15_zero_extension (b : List Byte) :
    ∃ v w, crc15Call b = .ok v ∧ crc15Call (b ++ [0x00]) = .ok w ∧
      (w = v ↔ (v = 0 ∨ v = 0xC377)) := by
  refine ⟨_, _, crc15Call_eq _, crc15Call_eq _, ?_⟩
  have hlt := runBytes_lt b 0x7fff (by norm_num)
  rw [runBytes_append, runBytes_cons, runBytes_nil, byteStep_zero _ hlt]
  constructor
  · exact shift8_fixed _ hlt
  · rintro (h | h)
    · rw [h]; exact shift8_fixed_zero
    · rw [h]; exact shift8_fixed_C377

/-- C7: incremental consistency: `crc15` is its own loop started from `0x7FFF`,
and for all sequences `a` and `b` one call on `a ++ b` returns what the loop
returns on `b` when it is resumed from the value returned for `a`. -/
theorem crc15_incremental (a b : List Byte) :
    crc15Call (a ++ b) = resumeCall 0x7fff (a ++ b) ∧
      ∃ r v, crc15Call a = .ok r ∧ resumeCall r b = .ok v ∧ crc15Call (a ++ b) = .ok v := by
  refine ⟨rfl, _, _, crc15Call_eq a, resumeCall_eq _ b, ?_⟩
  rw [crc15Call_eq, runBytes_append]

/-- C8: on a valid range (`s ≤ e ≤` size of memory) `crc15` returns a value, and
it dereferences exactly the addresses `s, s+1, ..., e-1`, each once and in this
order, all of them inside memory. -/
theorem crc15_reads_in_bounds (mem : List Byte) (s e : Nat) (hse : s ≤ e)
    (he : e ≤ mem.length) :
    ∃ st, crc15 mem s e = .ok st ∧ st.reads = List.range' s (e - s) ∧
      st.reads.Nodup ∧ ∀ a ∈ st.reads, s ≤ a ∧ a < e ∧ a < mem.length := by
  refine ⟨_, crc15From_valid 0x7fff mem s e hse he, rfl, List.nodup_range' s (e - s), ?_⟩
  intro a ha
  have h := List.mem_range'_1.mp ha
  omega

/-- Witness of C8: the range `[1, 3)` of a five-octet memory. -/
theorem crc15_reads_in_bounds_witness :
    (1 ≤ 3 ∧ 3 ≤ ([0x10, 0x20, 0x30, 0x40, 0x50] : List Byte).length) ∧
      ∃ st, crc15 [0x10, 0x20, 0x30, 0x40, 0x50] 1 3 = .ok st ∧
        st.reads = List.range' 1 (3 - 1) ∧ st.reads.Nodup ∧
        ∀ a ∈ st.reads, 1 ≤ a ∧ a < 3 ∧ a < ([0x10, 0x20, 0x30, 0x40, 0x50] : List Byte).length :=
  ⟨⟨by decide, by decide⟩,
    crc15_reads_in_bounds [0x10, 0x20, 0x30, 0x40, 0x50] 1 3 (by decide) (by decide)⟩

/-- C9: the returned value depends only on the octets of the range: two calls on
valid ranges that hold the same octets, in whatever memories and at whatever
addresses, return the same value. -/
theorem crc15_depends_on_contents (memA memB : List Byte) (sA eA sB eB : Nat)
    (hA : sA ≤ eA) (hAe : eA ≤ memA.length) (hB : sB ≤ eB) (hBe : eB ≤ memB.length)
    (hsame : slice memA sA eA = slice memB sB eB) :
    ∃ v, returned (crc15 memA sA eA) = .ok v ∧ returned (crc15 memB sB eB) = .ok v := by
  refine ⟨runBytes 0x7fff (slice memA sA eA), ?_, ?_⟩
  · rw [crc15, crc15From_valid 0x7fff memA sA eA hA hAe]; rfl
  · rw [crc15, crc15From_valid 0x7fff memB sB eB hB hBe, hsame]; rfl

/-- Witness of C9: the octets `0x41 0x42` at address 1 of one memory and at
address 0 of another. -/
theorem crc15_depends_on_contents_witness :
    (1 ≤ 3 ∧ 3 ≤ ([0x00, 0x41, 0x42, 0xFF] : List Byte).length ∧ 0 ≤ 2 ∧
        2 ≤ ([0x41, 0x42, 0x07] : List Byte).length ∧
        slice [0x00, 0x41, 0x42, 0xFF] 1 3 = slice [0x41, 0x42, 0x07] 0 2) ∧
      ∃ v, returned (crc15 [0x00, 0x41, 0x42, 0xFF] 1 3) = .ok v ∧
        returned (crc15 [0x41, 0x42, 0x07] 0 2) = .ok v :=
  ⟨⟨by decide, by decide, by decide, by decide, by decide⟩,
    crc15_depends_on_contents [0x00, 0x41, 0x42, 0xFF] [0x41, 0x42, 0x07] 1 3 0 2
      (by decide) (by decide) (by decide) (by decide) (by decide)⟩

/-- C10: `crc15` terminates on every valid range of `n = e - s` octets: the
`while` body runs exactly `n` times and the shift-and-feedback step exactly
`8 * n` times; every amount of fuel above `n` gives this same result, and no
smaller amount lets the loop finish. -/
theorem crc15_terminates_linear (mem : List Byte) (s e : Nat) (hse : s ≤ e)
    (he : e ≤ mem.length) :
    (∃ st, crc15 mem s e = .ok st ∧ st.outerIters = e - s ∧ st.innerSteps = 8 * (e - s)) ∧
      (∀ fuel, e - s < fuel → whileLoop mem e fuel (entry 0x7fff s) = crc15 mem s e) ∧
      (∀ fuel, fuel ≤ e - s → whileLoop mem e fuel (entry 0x7fff s) = .error .outOfFuel) := by
  refine ⟨⟨_, crc15From_valid 0x7fff mem s e hse he, rfl, rfl⟩, ?_, ?_⟩
  · intro fuel hf
    rw [crc15, crc15From_valid 0x7fff mem s e hse he]
    exact whileLoop_valid 0x7fff mem s e fuel hse he hf
  · intro fuel hf
    exact whileLoop_short 0x7fff mem s e fuel hse he hf

/-- Witness of C10: the range `[1, 4)` of a five-octet memory. -/
theorem crc15_terminates_linear_witness :
    (1 ≤ 4 ∧ 4 ≤ ([0x10, 0x20, 0x30, 0x40, 0x50] : List Byte).length) ∧
      (∃ st, crc15 [0x10, 0x20, 0x30, 0x40, 0x50] 1 4 = .ok st ∧ st.outerIters = 4 - 1 ∧
        st.innerSteps = 8 * (4 - 1)) ∧
      (∀ fuel, 4 - 1 < fuel →
        whileLoop [0x10, 0x20, 0x30, 0x40, 0x50] 4 fuel (entry 0x7fff 1) =
          crc15 [0x10, 0x20, 0x30, 0x40, 0x50] 1 4) ∧
      (∀ fuel, fuel ≤ 4 - 1 →
        whileLoop [0x10, 0x20, 0x30, 0x40, 0x50] 4 fuel (entry 0x7fff 1) =
          .error .outOfFuel) :=
  ⟨⟨by decide, by decide⟩,
    crc15_terminates_linear [0x10, 0x20, 0x30, 0x40, 0x50] 1 4 (by decide) (by decide)⟩


/-! ## The low 15 bits and the textbook CRC-15 -/

/-- The feedback constant fits in 15 bits, whether it is applied or not. -/
theorem feedback_low15 (t : Bool) :
    (if t = true then 0x4599 else 0) % 0x8000 = if t = true then 0x4599 else 0 := by
  cases t <;> rfl

/-- Doubling modulo `2^15` only sees the low 15 bits. -/
theorem shiftLeft_low15 (n : Nat) : ((n % 0x8000) <<< 1) % 0x8000 = (n <<< 1) % 0x8000 := by
  rw [Nat.shiftLeft_eq, Nat.shiftLeft_eq]; omega

/-- Bit 14 only depends on the low 15 bits. -/
theorem testBit14_low15 (n : Nat) : (n % 0x8000).testBit 14 = n.testBit 14 := by
  have h : (0x8000 : Nat) = 2 ^ 15 := by norm_num
  rw [h, Nat.testBit_mod_two_pow]
  simp

/-- The low 15 bits after the inner step: the shifted low bits, XOR the feedback
constant when bit 14 was set. -/
theorem shiftStep_low15 (c : Nat) :
    shiftStep c % 0x8000 =
      (c <<< 1) % 0x8000 ^^^ (if c.testBit 14 = true then 0x4599 else 0) := by
  rw [shiftStep_eq, xor_mod_low15, low15_of_u16, feedback_low15]

/-- The inner step only sees the low 15 bits of the register. -/
theorem shiftStep_mask (c : Nat) : shiftStep (c % 0x8000) = shiftStep c := by
  rw [shiftStep_eq, shiftStep_eq, testBit14_low15]
  have h : ((c % 0x8000) <<< 1) % 0x10000 = (c <<< 1) % 0x10000 := by
    rw [Nat.shiftLeft_eq, Nat.shiftLeft_eq]; omega
  rw [h]

/-- The textbook bit step without control flow. -/
theorem refBit_eq (g : Nat) (x : Byte) (k : Nat) :
    refBit g x k =
      (g <<< 1) % 0x8000 ^^^
        (if (g.testBit 14 ^^ x.val.testBit k) = true then 0x4599 else 0) := by
  have h : (0x7FFF : Nat) = 2 ^ 15 - 1 := by norm_num
  have h' : (0x8000 : Nat) = 2 ^ 15 := by norm_num
  unfold refBit
  simp only [h, h', Nat.and_pow_two_sub_one_eq_mod]
  cases (g.testBit 14 ^^ x.val.testBit k) <;> simp

/-- The textbook bit step stays within 15 bits. -/
theorem refBit_lt (g : Nat) (x : Byte) (k : Nat) : refBit g x k < 0x8000 := by
  rw [refBit_eq]
  have h1 : (g <<< 1) % 0x8000 < 2 ^ 15 := Nat.mod_lt _ (by norm_num)
  have h2 : (if (g.testBit 14 ^^ x.val.testBit k) = true then 0x4599 else 0) < 2 ^ 15 := by
    split <;> norm_num
  exact Nat.xor_lt_two_pow h1 h2

/-- Moving one term of a triple XOR to the end. -/
theorem xor_rotate (a b c : Nat) : a ^^^ b ^^^ c = a ^^^ c ^^^ b := by
  rw [Nat.xor_assoc, Nat.xor_comm b c, ← Nat.xor_assoc]

/-- One inner step of the code against one bit step of the textbook CRC: when the
low 15 bits of the code register are the textbook register XOR the part `m` of
the octet not yet consumed, and bit 14 of `m` is the message bit `k`, the same
holds after the step with `m` shifted left. -/
theorem shiftStep_refBit (c g m : Nat) (x : Byte) (k : Nat)
    (hm : m.testBit 14 = x.val.testBit k)
    (h : c % 0x8000 = g % 0x8000 ^^^ m % 0x8000) :
    shiftStep c % 0x8000 = refBit g x k % 0x8000 ^^^ (m <<< 1) % 0x8000 := by
  have hbit : c.testBit 14 = (g.testBit 14 ^^ x.val.testBit k) := by
    rw [← testBit14_low15 c, h, Nat.testBit_xor, testBit14_low15, testBit14_low15, hm]
  have hsh : (c <<< 1) % 0x8000 = (g <<< 1) % 0x8000 ^^^ (m <<< 1) % 0x8000 := by
    rw [← shiftLeft_low15 c, h, shiftLeft_xor, xor_mod_low15, shiftLeft_low15,
      shiftLeft_low15]
  rw [shiftStep_low15, hbit, hsh, Nat.mod_eq_of_lt (refBit_lt g x k), refBit_eq]
  exact xor_rotate _ _ _

/-- The per-byte update of the code, on the low 15 bits, is the textbook CRC-15
over the eight bits of the octet, most significant first. -/
theorem byteStep_refByte (r g : Nat) (x : Byte) (h : r % 0x8000 = g % 0x8000) :
    byteStep r x % 0x8000 = refByte g x := by
  have h0 : ((r ^^^ (x.val <<< 7)) % 0x10000) % 0x8000 =
      g % 0x8000 ^^^ (x.val <<< 7) % 0x8000 := by
    rw [low15_of_u16, xor_mod_low15, h]
  have h1 := shiftStep_refBit _ g _ x 7 (by simp [Nat.testBit_shiftLeft]) h0
  have h2 := shiftStep_refBit _ _ _ x 6 (by simp [Nat.testBit_shiftLeft]) h1
  have h3 := shiftStep_refBit _ _ _ x 5 (by simp [Nat.testBit_shiftLeft]) h2
  have h4 := shiftStep_refBit _ _ _ x 4 (by simp [Nat.testBit_shiftLeft]) h3
  have h5 := shiftStep_refBit _ _ _ x 3 (by simp [Nat.testBit_shiftLeft]) h4
  have h6 := shiftStep_refBit _ _ _ x 2 (by simp [Nat.testBit_shiftLeft]) h5
  have h7 := shiftStep_refBit _ _ _ x 1 (by simp [Nat.testBit_shiftLeft]) h6
  have h8 := shiftStep_refBit _ _ _ x 0 (by simp [Nat.testBit_shiftLeft]) h7
  have hz : (x.val <<< 7 <<< 1 <<< 1 <<< 1 <<< 1 <<< 1 <<< 1 <<< 1 <<< 1) % 0x8000 = 0 := by
    simp only [Nat.shiftLeft_eq]; omega
  rw [hz, Nat.xor_zero, Nat.mod_eq_of_lt (refBit_lt _ x 0)] at h8
  rw [byteStep, shift8_eq, h8]
  rfl

/-- The textbook octet step stays within 15 bits. -/
theorem refByte_lt (g : Nat) (x : Byte) : refByte g x < 0x8000 := by
  rw [← byteStep_refByte g g x rfl]
  exact Nat.mod_lt _ (by norm_num)

/-- The textbook register stays within 15 bits. -/
theorem foldl_refByte_lt (b : List Byte) :
    ∀ g : Nat, g < 0x8000 → b.foldl refByte g < 0x8000 := by
  induction b with
  | nil => intro g hg; rw [List.foldl_nil]; exact hg
  | cons x b ih => intro g _; rw [List.foldl_cons]; exact ih _ (refByte_lt g x)

/-- The `while` loop of the code, on the low 15 bits, is the textbook CRC-15. -/
theorem runBytes_ref (b : List Byte) :
    ∀ r g : Nat, r % 0x8000 = g % 0x8000 →
      runBytes r b % 0x8000 = b.foldl refByte g % 0x8000 := by
  induction b with
  | nil => intro r g h; rw [runBytes_nil, List.foldl_nil]; exact h
  | cons x b ih =>
    intro r g h
    rw [runBytes_cons, List.foldl_cons]
    apply ih
    rw [byteStep_refByte r g x h, Nat.mod_eq_of_lt (refByte_lt g x)]

/-- Masking with `0x7FFF` keeps the low 15 bits. -/
theorem and_low15 (n : Nat) : n &&& 0x7FFF = n % 0x8000 := by
  have h : (0x7FFF : Nat) = 2 ^ 15 - 1 := by norm_num
  have h' : (0x8000 : Nat) = 2 ^ 15 := by norm_num
  rw [h, h', Nat.and_pow_two_sub_one_eq_mod]

/-! ## Bit 15 of the register -/

/-- After the inner step, bit 15 and bit 0 both tell whether the feedback constant
was applied. -/
theorem shiftStep_bit15_bit0 (c : Nat) :
    (shiftStep c).testBit 15 = c.testBit 14 ∧ (shiftStep c).testBit 0 = c.testBit 14 := by
  have h16 : (0x10000 : Nat) = 2 ^ 16 := by norm_num
  have hs0 : ((c <<< 1) % 0x10000).testBit 0 = false := by
    rw [h16, Nat.testBit_mod_two_pow, Nat.testBit_shiftLeft]; simp
  have hk15 : Nat.testBit 0x4599 15 = false := by decide
  have hk0 : Nat.testBit 0x4599 0 = true := by decide
  rw [shiftStep_eq, Nat.testBit_xor, Nat.testBit_xor, testBit15_shift, hs0]
  cases c.testBit 14 <;> simp [hk15, hk0]

/-- After a non-empty run of the `while` loop, bit 15 of the register equals its
bit 0. -/
theorem runBytes_bit15_bit0 (r : Nat) (b : List Byte) (hb : b ≠ []) :
    (runBytes r b).testBit 15 = (runBytes r b).testBit 0 := by
  rw [← List.dropLast_concat_getLast hb, runBytes_append, runBytes_cons, runBytes_nil,
    byteStep, shift8_eq]
  have h := shiftStep_bit15_bit0
  rw [(h _).1, (h _).2]

/-- The per-byte update only sees the low 15 bits of the register. -/
theorem byteStep_mask (r : Nat) (x : Byte) : byteStep (r &&& 0x7FFF) x = byteStep r x := by
  have h : ((r &&& 0x7FFF ^^^ x.val <<< 7) % 0x10000) % 0x8000 =
      ((r ^^^ x.val <<< 7) % 0x10000) % 0x8000 := by
    rw [low15_of_u16, low15_of_u16, xor_mod_low15, xor_mod_low15, and_low15, Nat.mod_mod]
  rw [byteStep, byteStep, shift8_eq, shift8_eq,
    ← shiftStep_mask ((r &&& 0x7FFF ^^^ x.val <<< 7) % 0x10000), h, shiftStep_mask]

/-- A non-empty run of the `while` loop only sees the low 15 bits of the starting
register. -/
theorem runBytes_mask (r : Nat) (b : List Byte) (hb : b ≠ []) :
    runBytes (r &&& 0x7FFF) b = runBytes r b := by
  cases b with
  | nil => exact absurd rfl hb
  | cons x b => rw [runBytes_cons, runBytes_cons, byteStep_mask]

/-! ## Sequences that differ in one octet -/

/-- Two sequences of the same length that agree outside the index `i` have the
same octets before and after it. -/
theorem split_at_diff (a b : List Byte) (i : Nat)
    (hsame : ∀ j, j ≠ i → a[j]? = b[j]?) :
    a.take i = b.take i ∧ a.drop (i + 1) = b.drop (i + 1) := by
  constructor
  · apply List.ext_getElem?
    intro n
    rw [List.getElem?_take, List.getElem?_take]
    by_cases hn : n < i
    · rw [if_pos hn, if_pos hn]; exact hsame n (by omega)
    · rw [if_neg hn, if_neg hn]
  · apply List.ext_getElem?
    intro n
    rw [List.getElem?_drop, List.getElem?_drop]
    exact hsame _ (by omega)

/-! ## Linearity in the message -/

/-- The value of the XOR of two octets. -/
theorem xorByte_val (x y : Byte) : (xorByte x y).val = x.val ^^^ y.val := by
  have hx : x.val < 2 ^ 8 := x.isLt
  have hy : y.val < 2 ^ 8 := y.isLt
  exact Nat.mod_eq_of_lt (Nat.xor_lt_two_pow hx hy)

/-- The per-byte update is linear over GF(2), jointly in register and octet. -/
theorem byteStep_xor (r s : Nat) (x y : Byte) :
    byteStep (r ^^^ s) (xorByte x y) = byteStep r x ^^^ byteStep s y := by
  rw [byteStep, byteStep, byteStep, xorByte_val, shiftLeft_xor, xor_xor_xor_comm, xor_mod_u16,
    shift8_xor]

/-- The `while` loop is linear over GF(2), jointly in the starting register and
the message, for messages of the same length. -/
theorem runBytes_xor (a : List Byte) :
    ∀ (b : List Byte) (r s : Nat), a.length = b.length →
      runBytes (r ^^^ s) (xorBytes a b) = runBytes r a ^^^ runBytes s b := by
  induction a with
  | nil =>
    intro b r s h
    obtain rfl : b = [] := List.length_eq_zero.mp h.symm
    rfl
  | cons x a ih =>
    intro b r s h
    cases b with
    | nil => exact absurd h (by simp)
    | cons y b =>
      have hlen : a.length = b.length := by simpa using h
      rw [xorBytes, List.zipWith_cons_cons, runBytes_cons, runBytes_cons, runBytes_cons,
        byteStep_xor]
      exact ih b _ _ hlen

/-- The bytewise XOR of two sequences of the same length has that length. -/
theorem xorBytes_length (a b : List Byte) (h : a.length = b.length) :
    (xorBytes a b).length = a.length := by
  simp [xorBytes, h]

/-! ## Further claims about `crc15` -/

/-- C11: the low 15 bits of the value returned by `crc15` are the textbook
bit-serial CRC-15 (polynomial `0x4599`, most significant bit first, initial
value `0x7FFF`, no final XOR) of the byte sequence. -/
theorem crc15_low15_textbook (b : List Byte) :
    ∃ v, crc15Call b = .ok v ∧ v &&& 0x7FFF = crc15Ref b := by
  refine ⟨_, crc15Call_eq b, ?_⟩
  rw [and_low15, runBytes_ref b 0x7fff 0x7fff rfl]
  exact Nat.mod_eq_of_lt (foldl_refByte_lt b 0x7fff (by norm_num))

/-- C12: for every non-empty byte sequence, bit 15 of the value returned by
`crc15` equals its bit 0; the word has bit 15 set exactly when it is odd. -/
theorem crc15_bit15_eq_bit0 (b : List Byte) (hb : b ≠ []) :
    ∃ v, crc15Call b = .ok v ∧ v.testBit 15 = v.testBit 0 ∧
      (v &&& 0x8000 ≠ 0 ↔ v % 2 = 1) := by
  refine ⟨_, crc15Call_eq b, runBytes_bit15_bit0 0x7fff b hb, ?_⟩
  rw [and_bit15, runBytes_bit15_bit0 0x7fff b hb, Nat.testBit_zero]
  by_cases h : runBytes 0x7fff b % 2 = 1 <;> simp [h]

/-- Witness of C12 on the sequence that consists of the octet `0x41`. -/
theorem crc15_bit15_eq_bit0_witness :
    ([0x41] : List Byte) ≠ [] ∧
      ∃ v, crc15Call [0x41] = .ok v ∧ v.testBit 15 = v.testBit 0 ∧
        (v &&& 0x8000 ≠ 0 ↔ v % 2 = 1) :=
  ⟨by decide, crc15_bit15_eq_bit0 [0x41] (by decide)⟩

/-- C13: bit 15 of the register never influences later processing: one `while`
iteration gives the same state from a register as from the register masked
with `0x7FFF`, and resuming the loop on a non-empty continuation returns the same
value from `r` as from `r AND 0x7FFF`. -/
theorem crc15_bit15_no_influence (r : Nat) (b : List Byte) (hb : b ≠ []) :
    (∀ (st : Exec) (x : Byte),
        whileBody { st with crc := st.crc &&& 0x7FFF } x = whileBody st x) ∧
      ∃ v, resumeCall r b = .ok v ∧ resumeCall (r &&& 0x7FFF) b = .ok v := by
  refine ⟨?_, _, resumeCall_eq r b, ?_⟩
  · intro st x
    rw [whileBody_eq, whileBody_eq, byteStep_mask]
  · rw [resumeCall_eq, runBytes_mask r b hb]

/-- Witness of C13: resuming from the checksum `0xE397` of the demonstration array
on the octet `0x41`. -/
theorem crc15_bit15_no_influence_witness :
    ([0x41] : List Byte) ≠ [] ∧
      (∀ (st : Exec) (x : Byte),
          whileBody { st with crc := st.crc &&& 0x7FFF } x = whileBody st x) ∧
        ∃ v, resumeCall 0xE397 [0x41] = .ok v ∧ resumeCall (0xE397 &&& 0x7FFF) [0x41] = .ok v :=
  ⟨by decide, crc15_bit15_no_influence 0xE397 [0x41] (by decide)⟩

/-- C14: two byte sequences of the same length that differ at exactly one index
have checksums that differ in their low 15 bits; and the per-byte update is
injective on the low 15 bits of the register for a fixed octet, and injective in
the octet for a fixed register. -/
theorem crc15_single_byte_burst (a b : List Byte) (hlen : a.length = b.length) (i : Nat)
    (hi : i < a.length) (hdiff : a[i]? ≠ b[i]?) (hsame : ∀ j, j ≠ i → a[j]? = b[j]?) :
    (∃ v w, crc15Call a = .ok v ∧ crc15Call b = .ok w ∧ v &&& 0x7FFF ≠ w &&& 0x7FFF) ∧
      (∀ (st st' : Exec) (x : Byte),
        (whileBody st x).crc &&& 0x7FFF = (whileBody st' x).crc &&& 0x7FFF →
          st.crc &&& 0x7FFF = st'.crc &&& 0x7FFF) ∧
      (∀ (st : Exec) (x y : Byte),
        (whileBody st x).crc &&& 0x7FFF = (whileBody st y).crc &&& 0x7FFF → x = y) := by
  have hib : i < b.length := hlen ▸ hi
  refine ⟨⟨_, _, crc15Call_eq a, crc15Call_eq b, ?_⟩, ?_, ?_⟩
  · obtain ⟨htake, hdrop⟩ := split_at_diff a b i hsame
    have hxy : a[i] ≠ b[i] := by
      intro h
      apply hdiff
      rw [List.getElem?_eq_getElem hi, List.getElem?_eq_getElem hib, h]
    have ha : a = a.take i ++ a[i] :: a.drop (i + 1) := by
      rw [List.getElem_cons_drop, List.take_append_drop]
    have hb : b = a.take i ++ b[i] :: a.drop (i + 1) := by
      rw [htake, hdrop, List.getElem_cons_drop, List.take_append_drop]
    rw [and_low15, and_low15]
    conv => lhs; rw [ha]
    conv => rhs; rw [hb]
    exact runBytes_single_diff 0x7fff _ _ _ _ hxy
  · intro st st' x h
    rw [whileBody_eq, whileBody_eq] at h
    simp only [and_low15] at h ⊢
    exact byteStep_low15_inj_reg _ _ x h
  · intro st x y h
    rw [whileBody_eq, whileBody_eq] at h
    simp only [and_low15] at h
    exact byteStep_low15_inj_byte _ x y h

/-- Witness of C14: the sequences `0x41 0x42` and `0x41 0x50`, which differ at
index 1 only. -/
theorem crc15_single_byte_burst_witness :
    (([0x41, 0x42] : List Byte).length = ([0x41, 0x50] : List Byte).length ∧
        1 < ([0x41, 0x42] : List Byte).length ∧
        ([0x41, 0x42] : List Byte)[1]? ≠ ([0x41, 0x50] : List Byte)[1]? ∧
        ∀ j, j ≠ 1 → ([0x41, 0x42] : List Byte)[j]? = ([0x41, 0x50] : List Byte)[j]?) ∧
      ((∃ v w, crc15Call [0x41, 0x42] = .ok v ∧ crc15Call [0x41, 0x50] = .ok w ∧
          v &&& 0x7FFF ≠ w &&& 0x7FFF) ∧
        (∀ (st st' : Exec) (x : Byte),
          (whileBody st x).crc &&& 0x7FFF = (whileBody st' x).crc &&& 0x7FFF →
            st.crc &&& 0x7FFF = st'.crc &&& 0x7FFF) ∧
        (∀ (st : Exec) (x y : Byte),
          (whileBody st x).crc &&& 0x7FFF = (whileBody st y).crc &&& 0x7FFF → x = y)) :=
  have hsame : ∀ j, j ≠ 1 → ([0x41, 0x42] : List Byte)[j]? = ([0x41, 0x50] : List Byte)[j]? := by
    intro j hj
    match j, hj with
    | 0, _ => rfl
    | 1, h => exact absurd rfl h
    | _ + 2, _ => rfl
  ⟨⟨by decide, by decide, by decide, hsame⟩,
    crc15_single_byte_burst [0x41, 0x42] [0x41, 0x50] (by decide) 1 (by decide) (by decide)
      hsame⟩

/-- C15: `crc15` is affine over GF(2) in the message: for three byte sequences of
the same length, the value returned for their bytewise XOR is the XOR of the
three values returned for them, as full 16-bit words. -/
theorem crc15_affine (a b c : List Byte) (hab : a.length = b.length)
    (hbc : b.length = c.length) :
    ∃ u v w t, crc15Call a = .ok u ∧ crc15Call b = .ok v ∧ crc15Call c = .ok w ∧
      crc15Call (xorBytes (xorBytes a b) c) = .ok t ∧ t = u ^^^ v ^^^ w := by
  refine ⟨_, _, _, _, crc15Call_eq a, crc15Call_eq b, crc15Call_eq c, crc15Call_eq _, ?_⟩
  have h0 : (0x7fff : Nat) = (0x7fff ^^^ 0x7fff) ^^^ 0x7fff := by decide
  have hl : (xorBytes a b).length = c.length := by
    rw [xorBytes_length a b hab, hab, hbc]
  conv => lhs; rw [h0]
  rw [runBytes_xor (xorBytes a b) c _ _ hl, runBytes_xor a b _ _ hab]

/-- Witness of C15: three sequences of two octets. -/
theorem crc15_affine_witness :
    (([0x41, 0x42] : List Byte).length = ([0x10, 0x20] : List Byte).length ∧
        ([0x10, 0x20] : List Byte).length = ([0xFF, 0x01] : List Byte).length) ∧
      ∃ u v w t, crc15Call [0x41, 0x42] = .ok u ∧ crc15Call [0x10, 0x20] = .ok v ∧
        crc15Call [0xFF, 0x01] = .ok w ∧
        crc15Call (xorBytes (xorBytes [0x41, 0x42] [0x10, 0x20]) [0xFF, 0x01]) = .ok t ∧
        t = u ^^^ v ^^^ w :=
  ⟨⟨by decide, by decide⟩,
    crc15_affine [0x41, 0x42] [0x10, 0x20] [0xFF, 0x01] (by decide) (by decide)⟩

end Crc15
